import Mathlib

/-!
Verification of `pf_bf_search.py`: brute-force search for solutions of the
Permutation-Factorial relation (nPr = c!) and the Binomial-Factorial relation
(C(n, r) = c!), with classification of solutions into trivial / PF_F3 /
exceptional bins.

Embedding notes.

The Python module keeps a single piece of mutable state: the global list
`facts = [1, 1]`, extended only by `extend_factorials_until_ge`, which appends
`facts[-1] * len(facts)` while `facts[-1] < x`.  Starting from `[1, 1]`
(= `[0!, 1!]`), the appended entry at length `L` is `(L-1)! * L = L!`, so every
reachable value of the list is exactly `[0!, 1!, ..., (L-1)!]` for some length
`L ≥ 2`.  We therefore model the table state by its length `L : Nat`; the list
itself is recovered by `facts L` below, and the lemmas `facts_getLastD` and
`facts_append` certify that the loop guard and the loop body of the Python code
read and produce exactly these lists.

The two `while` loops of the source (`extend_factorials_until_ge` and the
binary search in `factorial_index_of`) do not recurse structurally, so each is
defined through an explicit fuel parameter that bounds its iteration count;
the lemmas `extend_factorials_eq` and `bsearch_eq` prove that the resulting
functions satisfy exactly the recurrence of the corresponding Python loop, so
no behaviour is lost by the fuel encoding.

Python's binary search keeps an inclusive upper bound `hi` that can reach -1;
we carry `hi+1` as a natural number instead (`hi` below is the exclusive upper
bound), so `lo <= hi` in Python reads `lo < hi` here and Python's
`mid = (lo + hi) // 2` reads `(lo + hi - 1) / 2`.

`factorial_index_of` returns a pair `(bool, Optional[int])` in Python whose
first component is `True` exactly when the second is not `None`; we collapse
it to a single `Option Nat`.  Every stateful function returns its result
together with the table length after the call.

The search loops (`search_pf`, `search_bf`) are `for` loops over
`range(0, n_max + 1)` and `range(0, n + 1)` appending to a result list `out`;
they are embedded as left folds over `List.range` whose step appends the
records produced for one `(n, r)` pair (`pfDelta` / `bfDelta`) to the
accumulator, threading the running product `prod` (PF only) and the table
length through.
-/

/-- The factorial table of length `L`: the value of the Python global `facts`
whenever its length is `L` (entry at index `k` is `k!`). -/
def facts (L : Nat) : List Nat := (List.range L).map Nat.factorial

/-- Iteration core of `extend_factorials_until_ge`: while `facts[-1] < x`
(the last entry of the length-`L` table is `(L-1)!`), grow the table by one
entry.  `fuel` bounds the number of iterations; `extend_factorials_until_ge`
supplies enough fuel, see `extend_factorials_eq`. -/
def extendFuel : Nat → Nat → Nat → Nat
  | 0, _, L => L
  | fuel + 1, x, L => if Nat.factorial (L - 1) < x then extendFuel fuel x (L + 1) else L

/-- Python `extend_factorials_until_ge(x)` acting on the table length:
returns the table length after the call.  Since each executed iteration has
`(L-1)! < x` and `L - 1 ≤ (L-1)!`, the loop runs fewer than `x + 1 - L`
times, which is the fuel supplied. -/
def extend_factorials_until_ge (x L : Nat) : Nat := extendFuel (x + 1 - L) x L

/-- Iteration core of the binary-search loop of `factorial_index_of`.
`hi` is exclusive (Python's inclusive `hi` plus one), so the guard
`lo <= hi` of the source reads `lo < hi` and Python's `mid = (lo + hi) // 2`
reads `(lo + hi - 1) / 2`.  Each iteration shrinks `hi - lo`, so that much
fuel suffices; see `bsearch_eq`. -/
def bsearchFuel (l : List Nat) (x : Nat) : Nat → Nat → Nat → Option Nat
  | 0, _, _ => none
  | fuel + 1, lo, hi =>
    if lo < hi then
      let mid := (lo + hi - 1) / 2
      let v := l.getD mid 0
      if v = x then some mid
      else if v < x then bsearchFuel l x fuel (mid + 1) hi
      else bsearchFuel l x fuel lo mid
    else none

/-- The binary-search loop of `factorial_index_of`, on the half-open
interval `[lo, hi)`. -/
def bsearch (l : List Nat) (x lo hi : Nat) : Option Nat := bsearchFuel l x (hi - lo) lo hi

/-- Python `factorial_index_of(x)`: `(False, None)` for `x < 1`, otherwise
extend the table to cover `x` and binary-search it.  The input is an `Int`
(Python ints may be negative); after the `x < 1` guard it is used as the
natural number `x.toNat`.  Returns the result together with the new table
length; `lo, hi = 0, len(facts) - 1` of the source becomes the half-open
interval `[0, L')`. -/
def factorial_index_of (st : Nat) (x : Int) : Option Nat × Nat :=
  if x < 1 then (none, st)
  else
    (bsearch (facts (extend_factorials_until_ge x.toNat st)) x.toNat 0
        (extend_factorials_until_ge x.toNat st),
      extend_factorials_until_ge x.toNat st)

/-- Python `is_factorial`, an alias of `factorial_index_of`. -/
def is_factorial (st : Nat) (x : Int) : Option Nat × Nat := factorial_index_of st x

/-- Python `n_is_factorial`, an alias of `factorial_index_of`. -/
def n_is_factorial (st : Nat) (n : Int) : Option Nat × Nat := factorial_index_of st n

/-- Result record of the PF search (`cls` is one of `"trivial"`, `"PF_F3"`,
`"exceptional"`). -/
structure PFRecord where
  n : Nat
  r : Nat
  c : Nat
  cls : String
deriving DecidableEq

/-- Result record of the BF search (`cls` is one of `"trivial"`,
`"exceptional"`). -/
structure BFRecord where
  n : Nat
  r : Nat
  c : Nat
  cls : String
deriving DecidableEq

/-- Python `is_pf_trivial(n, r, c)` with the table state threaded through
(the `r == 1` branch queries `n_is_factorial`, possibly growing the table).
The argument `c` is unused, as in the source. -/
def is_pf_trivial (st : Nat) (n r c : Nat) : Bool × Nat :=
  if r = 0 ∨ r = n - 1 ∨ r = n then (true, st)
  else if r = 1 then
    match n_is_factorial st (n : Int) with
    | (some _, st') => (true, st')
    | (none, st') => (false, st')
  else (false, st)

/-- Python `is_pf_F3(n, r, c)`: true iff `n = t!` with `t ≥ 3`, `r = n - t`
and `c = n - 1`. -/
def is_pf_F3 (st : Nat) (n r c : Nat) : Bool × Nat :=
  match n_is_factorial st (n : Int) with
  | (none, st') => (false, st')
  | (some t, st') => (if t < 3 then false else (r == n - t && c == n - 1), st')

/-- Python `is_bf_trivial(n, r, c)`.  The argument `c` is unused, as in the
source. -/
def is_bf_trivial (st : Nat) (n r c : Nat) : Bool × Nat :=
  if r = 0 ∨ r = n then (true, st)
  else if r = 1 ∨ r = n - 1 then
    match n_is_factorial st (n : Int) with
    | (some _, st') => (true, st')
    | (none, st') => (false, st')
  else (false, st)

/-- Lift a per-iteration body `d` (producing, from a loop-carried state and
the loop index, the records appended during that iteration and the next
state) to a fold step over an accumulator `(out, state)`; `out.append(rec)`
in the source becomes appending on the right. -/
def stepOf {α σ ι : Type} (d : σ → ι → List α × σ) : List α × σ → ι → List α × σ :=
  fun acc i => (acc.1 ++ (d acc.2 i).1, (d acc.2 i).2)

/-- The record list produced by running the loop body `d` over index list `l`
from state `st` with an empty accumulator. -/
def runOut {α σ ι : Type} (d : σ → ι → List α × σ) (st : σ) (l : List ι) : List α :=
  (l.foldl (stepOf d) ([], st)).1

/-- The final loop-carried state after running the loop body `d` over `l`
from state `st`. -/
def runSt {α σ ι : Type} (d : σ → ι → List α × σ) (st : σ) (l : List ι) : σ :=
  (l.foldl (stepOf d) ([], st)).2

/-- Body of the inner `for r in range(0, n + 1)` loop of `search_pf`.
State `ps = (prod, table length)`: for `r > 0` the running product is
multiplied by `n - (r - 1)`; the updated product is tested with
`is_factorial`, a match is classified trivial → PF_F3 → exceptional, and the
matching record (if its class is included) is emitted. -/
def pfDelta (include_trivial include_pf_f3 : Bool) (n : Nat) :
    Nat × Nat → Nat → List PFRecord × Nat × Nat
  | (prod0, st0), r =>
  let prod := if r = 0 then prod0 else prod0 * (n - (r - 1))
  match is_factorial st0 (prod : Int) with
  | (none, st1) => ([], prod, st1)
  | (some c, st1) =>
    let tr := is_pf_trivial st1 n r c
    if tr.1 then
      (if include_trivial then [⟨n, r, c, "trivial"⟩] else [], prod, tr.2)
    else
      let f3 := is_pf_F3 tr.2 n r c
      if f3.1 then
        (if include_pf_f3 then [⟨n, r, c, "PF_F3"⟩] else [], prod, f3.2)
      else
        ([⟨n, r, c, "exceptional"⟩], prod, f3.2)

/-- One iteration of the outer `for n in range(0, n_max + 1)` loop of
`search_pf`: run the inner loop with the running product seeded at 1,
returning the records emitted for this `n` and the final table length. -/
def pfRowD (include_trivial include_pf_f3 : Bool) (st : Nat) (n : Nat) :
    List PFRecord × Nat :=
  let z := (List.range (n + 1)).foldl (stepOf (pfDelta include_trivial include_pf_f3 n)) ([], 1, st)
  (z.1, z.2.2)

/-- Python `search_pf(n_max, include_trivial, include_pf_f3)`.  `st` is the
length of the global factorial table when the call starts (2 in a fresh
process); the call returns the record list and the final table length. -/
def search_pf (n_max : Nat) (include_trivial include_pf_f3 : Bool) (st : Nat) :
    List PFRecord × Nat :=
  (List.range (n_max + 1)).foldl (stepOf (pfRowD include_trivial include_pf_f3)) ([], st)

/-- Body of the inner `for r in range(0, n + 1)` loop of `search_bf`:
`val = math.comb(n, r)` is `Nat.choose n r`. -/
def bfDelta (include_trivial : Bool) (n : Nat) (st : Nat) (r : Nat) : List BFRecord × Nat :=
  let val := Nat.choose n r
  match is_factorial st (val : Int) with
  | (none, st1) => ([], st1)
  | (some c, st1) =>
    let tr := is_bf_trivial st1 n r c
    if tr.1 then (if include_trivial then [⟨n, r, c, "trivial"⟩] else [], tr.2)
    else ([⟨n, r, c, "exceptional"⟩], tr.2)

/-- One iteration of the outer loop of `search_bf`. -/
def bfRowD (include_trivial : Bool) (st : Nat) (n : Nat) : List BFRecord × Nat :=
  (List.range (n + 1)).foldl (stepOf (bfDelta include_trivial n)) ([], st)

/-- Python `search_bf(n_max, include_trivial)`, with the table length
threaded as in `search_pf`. -/
def search_bf (n_max : Nat) (include_trivial : Bool) (st : Nat) : List BFRecord × Nat :=
  (List.range (n_max + 1)).foldl (stepOf (bfRowD include_trivial)) ([], st)

/-- The state-independent fields of a PF record: everything except `c`. -/
def pfKey (rec : PFRecord) : Nat × Nat × String := (rec.n, rec.r, rec.cls)

/-- The state-independent fields of a BF record: everything except `c`. -/
def bfKey (rec : BFRecord) : Nat × Nat × String := (rec.n, rec.r, rec.cls)

/-! ### The factorial table -/

theorem facts_length (L : Nat) : (facts L).length = L := by
  simp [facts]

theorem facts_getD {k L : Nat} (h : k < L) : (facts L).getD k 0 = Nat.factorial k := by
  simp [facts, List.getD_eq_getElem?_getD, List.getElem?_map, List.getElem?_range h]

theorem facts_getLastD {L : Nat} (h : 1 ≤ L) :
    (facts L).getLastD 0 = Nat.factorial (L - 1) := by
  obtain ⟨m, rfl⟩ : ∃ m, L = m + 1 := ⟨L - 1, by omega⟩
  simp [facts, List.range_succ]

theorem facts_append {L : Nat} (h : 1 ≤ L) :
    facts (L + 1) = facts L ++ [(facts L).getLastD 0 * (facts L).length] := by
  obtain ⟨m, rfl⟩ : ∃ m, L = m + 1 := ⟨L - 1, by omega⟩
  simp [facts, List.range_succ, Nat.factorial_succ, Nat.mul_comm]

theorem facts_sorted {L i j : Nat} (hij : i ≤ j) (hj : j < L) :
    (facts L).getD i 0 ≤ (facts L).getD j 0 := by
  rw [facts_getD (lt_of_le_of_lt hij hj), facts_getD hj]
  exact Nat.factorial_le hij

/-! ### Table extension -/

theorem extendFuel_ge : ∀ fuel x L, L ≤ extendFuel fuel x L := by
  intro fuel
  induction fuel with
  | zero => intro x L; exact le_refl L
  | succ fuel ih =>
    intro x L
    simp only [extendFuel]
    split
    · exact le_trans (Nat.le_succ L) (ih x (L + 1))
    · exact le_refl L

theorem extend_ge (x L : Nat) : L ≤ extend_factorials_until_ge x L :=
  extendFuel_ge _ x L

theorem extendFuel_post : ∀ fuel x L, x + 1 ≤ fuel + L →
    x ≤ Nat.factorial (extendFuel fuel x L - 1) := by
  intro fuel
  induction fuel with
  | zero =>
    intro x L h
    have h2 : L - 1 ≤ Nat.factorial (L - 1) := Nat.self_le_factorial _
    simp only [extendFuel]
    omega
  | succ fuel ih =>
    intro x L h
    simp only [extendFuel]
    split
    · exact ih x (L + 1) (by omega)
    · omega

theorem extend_post (x L : Nat) :
    x ≤ Nat.factorial (extend_factorials_until_ge x L - 1) :=
  extendFuel_post _ x L (by omega)

theorem extend_noop {x L : Nat} (h : x ≤ Nat.factorial (L - 1)) :
    extend_factorials_until_ge x L = L := by
  unfold extend_factorials_until_ge
  cases hx : x + 1 - L with
  | zero => rfl
  | succ m => simp [extendFuel, Nat.not_lt.mpr h]

theorem extend_idem (x L : Nat) :
    extend_factorials_until_ge x (extend_factorials_until_ge x L) =
      extend_factorials_until_ge x L :=
  extend_noop (extend_post x L)

theorem extend_factorials_eq (x L : Nat) :
    extend_factorials_until_ge x L =
      if Nat.factorial (L - 1) < x then extend_factorials_until_ge x (L + 1) else L := by
  unfold extend_factorials_until_ge
  cases hx : x + 1 - L with
  | zero =>
    have h2 : L - 1 ≤ Nat.factorial (L - 1) := Nat.self_le_factorial _
    have : ¬ Nat.factorial (L - 1) < x := by omega
    simp [extendFuel, this]
  | succ m =>
    simp only [extendFuel]
    rw [show m = x + 1 - (L + 1) from by omega]

/-! ### Binary search -/

theorem bsearchFuel_some {l : List Nat} {x : Nat} :
    ∀ fuel lo hi m, bsearchFuel l x fuel lo hi = some m →
      l.getD m 0 = x ∧ lo ≤ m ∧ m < hi := by
  intro fuel
  induction fuel with
  | zero => intro lo hi m h; simp [bsearchFuel] at h
  | succ fuel ih =>
    intro lo hi m h
    simp only [bsearchFuel] at h
    by_cases hlh : lo < hi
    · rw [if_pos hlh] at h
      by_cases hv : l.getD ((lo + hi - 1) / 2) 0 = x
      · simp only [hv, if_pos rfl] at h
        obtain rfl : (lo + hi - 1) / 2 = m := by exact Option.some_injective _ h
        exact ⟨hv, by omega, by omega⟩
      · rw [if_neg hv] at h
        by_cases hlt : l.getD ((lo + hi - 1) / 2) 0 < x
        · rw [if_pos hlt] at h
          obtain ⟨h1, h2, h3⟩ := ih _ _ _ h
          exact ⟨h1, by omega, h3⟩
        · rw [if_neg hlt] at h
          obtain ⟨h1, h2, h3⟩ := ih _ _ _ h
          exact ⟨h1, h2, by omega⟩
    · rw [if_neg hlh] at h
      exact absurd h (by simp)

theorem bsearchFuel_complete {l : List Nat} {x : Nat}
    (hsort : ∀ i j, i ≤ j → j < l.length → l.getD i 0 ≤ l.getD j 0) :
    ∀ fuel lo hi i, hi - lo ≤ fuel → hi ≤ l.length → lo ≤ i → i < hi →
      l.getD i 0 = x → ∃ m, bsearchFuel l x fuel lo hi = some m := by
  intro fuel
  induction fuel with
  | zero => intro lo hi i hfuel _ hlo hhi _; omega
  | succ fuel ih =>
    intro lo hi i hfuel hlen hlo hhi hx
    have hlh : lo < hi := by omega
    simp only [bsearchFuel, if_pos hlh]
    by_cases hv : l.getD ((lo + hi - 1) / 2) 0 = x
    · exact ⟨_, by rw [if_pos hv]⟩
    · rw [if_neg hv]
      by_cases hlt : l.getD ((lo + hi - 1) / 2) 0 < x
      · rw [if_pos hlt]
        have hmid : (lo + hi - 1) / 2 < i := by
          by_contra hc
          have h2 : l.getD i 0 ≤ l.getD ((lo + hi - 1) / 2) 0 :=
            hsort i _ (by omega) (by omega)
          omega
        exact ih (_ + 1) hi i (by omega) hlen (by omega) hhi hx
      · rw [if_neg hlt]
        have hmid : i < (lo + hi - 1) / 2 := by
          by_contra hc
          have h2 : l.getD ((lo + hi - 1) / 2) 0 ≤ l.getD i 0 :=
            hsort _ i (by omega) (by omega)
          omega
        exact ih lo _ i (by omega) (by omega) hlo hmid hx

theorem bsearchFuel_irrel {l : List Nat} {x : Nat} :
    ∀ fuel1 fuel2 lo hi, hi - lo ≤ fuel1 → hi - lo ≤ fuel2 →
      bsearchFuel l x fuel1 lo hi = bsearchFuel l x fuel2 lo hi := by
  intro fuel1
  induction fuel1 with
  | zero =>
    intro fuel2 lo hi h1 h2
    have hlh : ¬ lo < hi := by omega
    cases fuel2 with
    | zero => rfl
    | succ k => simp [bsearchFuel, hlh]
  | succ fuel1 ih =>
    intro fuel2 lo hi h1 h2
    cases fuel2 with
    | zero =>
      have hlh : ¬ lo < hi := by omega
      simp [bsearchFuel, hlh]
    | succ k =>
      simp only [bsearchFuel]
      by_cases hlh : lo < hi
      · rw [if_pos hlh, if_pos hlh]
        by_cases hv : l.getD ((lo + hi - 1) / 2) 0 = x
        · rw [if_pos hv, if_pos hv]
        · rw [if_neg hv, if_neg hv]
          by_cases hlt : l.getD ((lo + hi - 1) / 2) 0 < x
          · rw [if_pos hlt, if_pos hlt]
            exact ih k _ hi (by omega) (by omega)
          · rw [if_neg hlt, if_neg hlt]
            exact ih k lo _ (by omega) (by omega)
      · rw [if_neg hlh, if_neg hlh]

theorem bsearch_eq (l : List Nat) (x lo hi : Nat) :
    bsearch l x lo hi =
      if lo < hi then
        let mid := (lo + hi - 1) / 2
        let v := l.getD mid 0
        if v = x then some mid
        else if v < x then bsearch l x (mid + 1) hi
        else bsearch l x lo mid
      else none := by
  unfold bsearch
  cases hd : hi - lo with
  | zero =>
    have hlh : ¬ lo < hi := by omega
    simp [bsearchFuel, hlh]
  | succ m =>
    have hlh : lo < hi := by omega
    simp only [bsearchFuel, if_pos hlh]
    by_cases hv : l.getD ((lo + hi - 1) / 2) 0 = x
    · rw [if_pos hv, if_pos hv]
    · rw [if_neg hv, if_neg hv]
      by_cases hlt : l.getD ((lo + hi - 1) / 2) 0 < x
      · rw [if_pos hlt, if_pos hlt]
        exact bsearchFuel_irrel m _ _ hi (by omega) (by omega)
      · rw [if_neg hlt, if_neg hlt]
        exact bsearchFuel_irrel m _ lo _ (by omega) (by omega)

/-! ### Behaviour of `factorial_index_of` -/

theorem bsearch_some {l : List Nat} {x lo hi m : Nat} (h : bsearch l x lo hi = some m) :
    l.getD m 0 = x ∧ lo ≤ m ∧ m < hi := by
  unfold bsearch at h
  exact bsearchFuel_some _ _ _ _ h

theorem bsearch_complete {l : List Nat} {x : Nat}
    (hsort : ∀ i j, i ≤ j → j < l.length → l.getD i 0 ≤ l.getD j 0)
    {lo hi i : Nat} (hlen : hi ≤ l.length) (hlo : lo ≤ i) (hhi : i < hi)
    (hx : l.getD i 0 = x) : ∃ m, bsearch l x lo hi = some m := by
  unfold bsearch
  exact bsearchFuel_complete hsort _ lo hi i (le_refl _) hlen hlo hhi hx

theorem facts_sorted_all (L : Nat) :
    ∀ i j, i ≤ j → j < (facts L).length → (facts L).getD i 0 ≤ (facts L).getD j 0 := by
  intro i j hij hj
  rw [facts_length] at hj
  exact facts_sorted hij hj

theorem fio_neg {st : Nat} {x : Int} (h : x < 1) : factorial_index_of st x = (none, st) := by
  simp [factorial_index_of, h]

theorem fio_st_ge (st : Nat) (x : Int) : st ≤ (factorial_index_of st x).2 := by
  unfold factorial_index_of
  split
  · exact le_refl st
  · exact extend_ge _ st

theorem fio_st_eq {st : Nat} {x : Int} (hx : ¬ x < 1)
    (h : x.toNat ≤ Nat.factorial (st - 1)) : (factorial_index_of st x).2 = st := by
  unfold factorial_index_of
  rw [if_neg hx]
  exact extend_noop h

theorem fio_some_sound {st : Nat} {x : Int} {m : Nat}
    (h : (factorial_index_of st x).1 = some m) : x = (Nat.factorial m : Int) := by
  unfold factorial_index_of at h
  by_cases hx : x < 1
  · rw [if_pos hx] at h
    exact absurd h (by simp)
  · rw [if_neg hx] at h
    obtain ⟨h1, _, h3⟩ := bsearch_some h
    rw [facts_getD h3] at h1
    rw [h1]
    exact (Int.toNat_of_nonneg (by omega)).symm

theorem fio_fact_ge2 (st : Nat) {k : Nat} (hk : 2 ≤ k) :
    (factorial_index_of st ((Nat.factorial k : Int))).1 = some k := by
  have hpos : 0 < Nat.factorial k := Nat.factorial_pos k
  have hx : ¬ ((Nat.factorial k : Int) < 1) := by exact_mod_cast Nat.not_lt.mpr hpos
  unfold factorial_index_of
  rw [if_neg hx]
  have htn : ((Nat.factorial k : Int)).toNat = Nat.factorial k := Int.toNat_natCast _
  rw [htn]
  have hpost := extend_post (Nat.factorial k) st
  have hklt : k < extend_factorials_until_ge (Nat.factorial k) st := by
    by_contra hc
    push_neg at hc
    have h1 : Nat.factorial (extend_factorials_until_ge (Nat.factorial k) st - 1) ≤
        Nat.factorial (k - 1) := Nat.factorial_le (by omega)
    have h2 : Nat.factorial (k - 1) < Nat.factorial k :=
      (Nat.factorial_lt (by omega)).mpr (by omega)
    omega
  obtain ⟨m, hm⟩ := bsearch_complete (facts_sorted_all _)
    (le_of_eq (facts_length _).symm) (Nat.zero_le k) hklt (facts_getD hklt)
  have hsound := bsearch_some hm
  rw [facts_getD hsound.2.2] at hsound
  have hm2 : 2 ≤ m := by
    by_contra hc
    have : Nat.factorial m = 1 := by interval_cases m <;> simp [Nat.factorial]
    have h2 : Nat.factorial 2 ≤ Nat.factorial k := Nat.factorial_le hk
    simp [Nat.factorial] at h2
    omega
  have hmk : m = k := by
    rcases lt_trichotomy m k with h | h | h
    · have := (Nat.factorial_lt (by omega)).mpr h
      omega
    · exact h
    · have := (Nat.factorial_lt (by omega)).mpr h
      omega
  rw [hmk] at hm
  exact hm

theorem fio_one (st : Nat) (hst : 2 ≤ st) :
    ∃ m, m ≤ 1 ∧ (factorial_index_of st 1).1 = some m := by
  have hx : ¬ ((1 : Int) < 1) := by omega
  unfold factorial_index_of
  rw [if_neg hx]
  have htn : ((1 : Int)).toNat = 1 := rfl
  rw [htn]
  have hnoop : extend_factorials_until_ge 1 st = st :=
    extend_noop (Nat.factorial_pos _)
  rw [hnoop]
  have h0 : (facts st).getD 0 0 = 1 := by
    rw [facts_getD (by omega)]
    rfl
  obtain ⟨m, hm⟩ := bsearch_complete (facts_sorted_all _)
    (le_of_eq (facts_length _).symm) (Nat.zero_le 0) (by omega) h0
  have hsound := bsearch_some hm
  rw [facts_getD hsound.2.2] at hsound
  have hm1 : m ≤ 1 := by
    by_contra hc
    have h2 : Nat.factorial 2 ≤ Nat.factorial m := Nat.factorial_le (by omega)
    simp [Nat.factorial] at h2
    omega
  exact ⟨m, hm1, hm⟩

theorem fio_not_fact (st : Nat) {x : Int} (h : ¬ ∃ k : Nat, x = (Nat.factorial k : Int)) :
    (factorial_index_of st x).1 = none := by
  cases hres : (factorial_index_of st x).1 with
  | none => rfl
  | some m => exact absurd ⟨m, fio_some_sound hres⟩ h

theorem fact_small_eq_one {k : Nat} (hk : k < 2) : Nat.factorial k = 1 := by
  interval_cases k <;> simp [Nat.factorial]

theorem fio_trichotomy (st : Nat) (hst : 2 ≤ st) (x : Int) :
    ((¬ ∃ k : Nat, x = (Nat.factorial k : Int)) ∧ (factorial_index_of st x).1 = none) ∨
    (x = 1 ∧ ∃ m, m ≤ 1 ∧ (factorial_index_of st x).1 = some m) ∨
    (∃ k, 2 ≤ k ∧ x = (Nat.factorial k : Int) ∧ (factorial_index_of st x).1 = some k) := by
  by_cases h : ∃ k : Nat, x = (Nat.factorial k : Int)
  · obtain ⟨k, rfl⟩ := h
    rcases Nat.lt_or_ge k 2 with hk | hk
    · right; left
      rw [fact_small_eq_one hk]
      exact ⟨by norm_num, fio_one st hst⟩
    · right; right
      exact ⟨k, hk, rfl, fio_fact_ge2 st hk⟩
  · left
    exact ⟨h, fio_not_fact st h⟩

theorem fio_isSome_iff {st : Nat} (hst : 2 ≤ st) (x : Int) :
    ((factorial_index_of st x).1).isSome = true ↔ ∃ k : Nat, x = (Nat.factorial k : Int) := by
  constructor
  · intro h
    obtain ⟨m, hm⟩ := Option.isSome_iff_exists.mp h
    exact ⟨m, fio_some_sound hm⟩
  · intro h
    rcases fio_trichotomy st hst x with ⟨hn, _⟩ | ⟨_, ⟨m, _, hm⟩⟩ | ⟨k, _, _, hm⟩
    · exact absurd h hn
    · simp [hm]
    · simp [hm]

/-! ### Generic lemmas about the loop embedding -/

theorem foldl_stepOf {α σ ι : Type} (d : σ → ι → List α × σ) :
    ∀ (l : List ι) (out : List α) (st : σ),
      List.foldl (stepOf d) (out, st) l = (out ++ runOut d st l, runSt d st l) := by
  intro l
  induction l with
  | nil => intro out st; simp [runOut, runSt]
  | cons i l ih =>
    intro out st
    have h1 : List.foldl (stepOf d) (out, st) (i :: l) =
        List.foldl (stepOf d) (out ++ (d st i).1, (d st i).2) l := rfl
    have h2 : List.foldl (stepOf d) (([] : List α), st) (i :: l) =
        List.foldl (stepOf d) ([] ++ (d st i).1, (d st i).2) l := rfl
    have h3 : runOut d st (i :: l) = (d st i).1 ++ runOut d (d st i).2 l := by
      unfold runOut
      rw [h2, List.nil_append, ih]
      rfl
    have h4 : runSt d st (i :: l) = runSt d (d st i).2 l := by
      unfold runSt
      rw [h2, List.nil_append, ih]
      rfl
    rw [h1, ih, h3, h4, List.append_assoc]

theorem runOut_nil {α σ ι : Type} (d : σ → ι → List α × σ) (st : σ) :
    runOut d st ([] : List ι) = [] := rfl

theorem runSt_nil {α σ ι : Type} (d : σ → ι → List α × σ) (st : σ) :
    runSt d st ([] : List ι) = st := rfl

theorem runOut_cons {α σ ι : Type} (d : σ → ι → List α × σ) (st : σ) (i : ι) (l : List ι) :
    runOut d st (i :: l) = (d st i).1 ++ runOut d (d st i).2 l := by
  unfold runOut
  rw [show List.foldl (stepOf d) (([] : List α), st) (i :: l) =
      List.foldl (stepOf d) ([] ++ (d st i).1, (d st i).2) l from rfl,
    List.nil_append, foldl_stepOf]
  rfl

theorem runSt_cons {α σ ι : Type} (d : σ → ι → List α × σ) (st : σ) (i : ι) (l : List ι) :
    runSt d st (i :: l) = runSt d (d st i).2 l := by
  unfold runSt
  rw [show List.foldl (stepOf d) (([] : List α), st) (i :: l) =
      List.foldl (stepOf d) ([] ++ (d st i).1, (d st i).2) l from rfl,
    List.nil_append, foldl_stepOf]
  rfl

theorem runOut_append {α σ ι : Type} (d : σ → ι → List α × σ) (st : σ) (l1 l2 : List ι) :
    runOut d st (l1 ++ l2) = runOut d st l1 ++ runOut d (runSt d st l1) l2 := by
  have h1 : List.foldl (stepOf d) (([] : List α), st) l1 = (runOut d st l1, runSt d st l1) := by
    rw [foldl_stepOf, List.nil_append]
  unfold runOut
  rw [List.foldl_append, h1, foldl_stepOf]
  rfl

theorem runSt_append {α σ ι : Type} (d : σ → ι → List α × σ) (st : σ) (l1 l2 : List ι) :
    runSt d st (l1 ++ l2) = runSt d (runSt d st l1) l2 := by
  have h1 : List.foldl (stepOf d) (([] : List α), st) l1 = (runOut d st l1, runSt d st l1) := by
    rw [foldl_stepOf, List.nil_append]
  unfold runSt
  rw [List.foldl_append, h1, foldl_stepOf]
  rfl

theorem runOut_mem {α σ ι : Type} (d : σ → ι → List α × σ) (P : ι → α → Prop)
    (hP : ∀ st i a, a ∈ (d st i).1 → P i a) :
    ∀ (l : List ι) (st : σ) (a : α), a ∈ runOut d st l → ∃ i ∈ l, P i a := by
  intro l
  induction l with
  | nil =>
    intro st a h
    rw [runOut_nil] at h
    exact absurd h (List.not_mem_nil a)
  | cons i l ih =>
    intro st a h
    rw [runOut_cons] at h
    rcases List.mem_append.mp h with h1 | h2
    · exact ⟨i, List.mem_cons_self i l, hP st i a h1⟩
    · obtain ⟨j, hj, hPj⟩ := ih _ a h2
      exact ⟨j, List.mem_cons_of_mem i hj, hPj⟩

theorem runOut_pairwise {α σ ι : Type} (d : σ → ι → List α × σ)
    (Q : α → α → Prop) (P : ι → α → Prop)
    (hP : ∀ st i a, a ∈ (d st i).1 → P i a)
    (hd : ∀ st i, ((d st i).1).Pairwise Q) :
    ∀ (l : List ι), l.Pairwise (fun i j => ∀ a b, P i a → P j b → Q a b) →
      ∀ st : σ, (runOut d st l).Pairwise Q := by
  intro l
  induction l with
  | nil => intro _ st; rw [runOut_nil]; exact List.Pairwise.nil
  | cons i l ih =>
    intro hl st
    rw [runOut_cons, List.pairwise_append]
    obtain ⟨hrel, htail⟩ := List.pairwise_cons.mp hl
    refine ⟨hd st i, ih htail _, ?_⟩
    intro a ha b hb
    obtain ⟨j, hj, hPj⟩ := runOut_mem d P hP l _ b hb
    exact hrel j hj a b (hP st i a ha) hPj

theorem runOut_filter {α σ ι : Type} (d e : σ → ι → List α × σ) (p : α → Bool)
    (h : ∀ st i, (e st i).1 = ((d st i).1).filter p ∧ (e st i).2 = (d st i).2) :
    ∀ (l : List ι) (st : σ),
      runOut e st l = (runOut d st l).filter p ∧ runSt e st l = runSt d st l := by
  intro l
  induction l with
  | nil => intro st; simp [runOut_nil, runSt_nil]
  | cons i l ih =>
    intro st
    rw [runOut_cons, runOut_cons, runSt_cons, runSt_cons, (h st i).1, (h st i).2,
      List.filter_append]
    obtain ⟨ih1, ih2⟩ := ih ((d st i).2)
    rw [ih1, ih2]
    exact ⟨rfl, rfl⟩

theorem runOut_parallel {α α2 β σ σ2 ι : Type}
    (d : σ → ι → List α × σ) (e : σ2 → ι → List α2 × σ2)
    (f : α → β) (g : α2 → β) (Rel : σ → σ2 → Prop)
    (h : ∀ st st2 i, Rel st st2 →
      ((d st i).1).map f = ((e st2 i).1).map g ∧ Rel (d st i).2 (e st2 i).2) :
    ∀ (l : List ι) (st : σ) (st2 : σ2), Rel st st2 →
      (runOut d st l).map f = (runOut e st2 l).map g ∧
        Rel (runSt d st l) (runSt e st2 l) := by
  intro l
  induction l with
  | nil => intro st st2 hR; exact ⟨rfl, hR⟩
  | cons i l ih =>
    intro st st2 hR
    obtain ⟨hmap, hR2⟩ := h st st2 i hR
    obtain ⟨ih1, ih2⟩ := ih _ _ hR2
    rw [runOut_cons, runOut_cons, runSt_cons, runSt_cons, List.map_append, List.map_append,
      hmap, ih1]
    exact ⟨rfl, ih2⟩

/-! ### Classifier behaviour -/

theorem is_factorial_eq : is_factorial = factorial_index_of := rfl

theorem n_is_factorial_eq : n_is_factorial = factorial_index_of := rfl

theorem facts_strict {L i j : Nat} (h2 : 2 ≤ i) (hij : i < j) (hj : j < L) :
    (facts L).getD i 0 < (facts L).getD j 0 := by
  rw [facts_getD (by omega), facts_getD hj]
  exact (Nat.factorial_lt (by omega)).mpr hij

theorem is_pf_trivial_eq1 {n r : Nat} (st c : Nat) (h : r = 0 ∨ r = n - 1 ∨ r = n) :
    is_pf_trivial st n r c = (true, st) := by
  unfold is_pf_trivial
  rw [if_pos h]

theorem is_pf_trivial_eq2 {n r : Nat} (st c : Nat) (h1 : ¬ (r = 0 ∨ r = n - 1 ∨ r = n))
    (h2 : r = 1) :
    is_pf_trivial st n r c =
      (((n_is_factorial st (n : Int)).1).isSome, (n_is_factorial st (n : Int)).2) := by
  unfold is_pf_trivial
  rw [if_neg h1, if_pos h2]
  rcases hp : n_is_factorial st (n : Int) with ⟨o, s⟩
  cases o <;> simp

theorem is_pf_trivial_eq3 {n r : Nat} (st c : Nat) (h1 : ¬ (r = 0 ∨ r = n - 1 ∨ r = n))
    (h2 : ¬ r = 1) :
    is_pf_trivial st n r c = (false, st) := by
  unfold is_pf_trivial
  rw [if_neg h1, if_neg h2]

theorem is_bf_trivial_eq1 {n r : Nat} (st c : Nat) (h : r = 0 ∨ r = n) :
    is_bf_trivial st n r c = (true, st) := by
  unfold is_bf_trivial
  rw [if_pos h]

theorem is_bf_trivial_eq2 {n r : Nat} (st c : Nat) (h1 : ¬ (r = 0 ∨ r = n))
    (h2 : r = 1 ∨ r = n - 1) :
    is_bf_trivial st n r c =
      (((n_is_factorial st (n : Int)).1).isSome, (n_is_factorial st (n : Int)).2) := by
  unfold is_bf_trivial
  rw [if_neg h1, if_pos h2]
  rcases hp : n_is_factorial st (n : Int) with ⟨o, s⟩
  cases o <;> simp

theorem is_bf_trivial_eq3 {n r : Nat} (st c : Nat) (h1 : ¬ (r = 0 ∨ r = n))
    (h2 : ¬ (r = 1 ∨ r = n - 1)) :
    is_bf_trivial st n r c = (false, st) := by
  unfold is_bf_trivial
  rw [if_neg h1, if_neg h2]

theorem is_pf_F3_eq (st n r c : Nat) :
    is_pf_F3 st n r c =
      (((n_is_factorial st (n : Int)).1).elim false
          (fun t => if t < 3 then false else (r == n - t && c == n - 1)),
        (n_is_factorial st (n : Int)).2) := by
  unfold is_pf_F3
  rcases hp : n_is_factorial st (n : Int) with ⟨o, s⟩
  cases o <;> simp

theorem is_pf_trivial_st_ge (st n r c : Nat) : st ≤ (is_pf_trivial st n r c).2 := by
  by_cases h1 : r = 0 ∨ r = n - 1 ∨ r = n
  · rw [is_pf_trivial_eq1 st c h1]
  · by_cases h2 : r = 1
    · rw [is_pf_trivial_eq2 st c h1 h2]
      exact fio_st_ge st (n : Int)
    · rw [is_pf_trivial_eq3 st c h1 h2]

theorem is_bf_trivial_st_ge (st n r c : Nat) : st ≤ (is_bf_trivial st n r c).2 := by
  by_cases h1 : r = 0 ∨ r = n
  · rw [is_bf_trivial_eq1 st c h1]
  · by_cases h2 : r = 1 ∨ r = n - 1
    · rw [is_bf_trivial_eq2 st c h1 h2]
      exact fio_st_ge st (n : Int)
    · rw [is_bf_trivial_eq3 st c h1 h2]

theorem is_pf_F3_st_ge (st n r c : Nat) : st ≤ (is_pf_F3 st n r c).2 := by
  rw [is_pf_F3_eq]
  exact fio_st_ge st (n : Int)

theorem fio_bool_indep {L1 L2 : Nat} (h1 : 2 ≤ L1) (h2 : 2 ≤ L2) (x : Int) :
    ((factorial_index_of L1 x).1).isSome = ((factorial_index_of L2 x).1).isSome := by
  by_cases h : ∃ k : Nat, x = (Nat.factorial k : Int)
  · rw [(fio_isSome_iff h1 x).mpr h, (fio_isSome_iff h2 x).mpr h]
  · rw [fio_not_fact L1 h, fio_not_fact L2 h]

theorem is_pf_trivial_indep {L1 L2 : Nat} (h1 : 2 ≤ L1) (h2 : 2 ≤ L2) (n r c1 c2 : Nat) :
    (is_pf_trivial L1 n r c1).1 = (is_pf_trivial L2 n r c2).1 := by
  by_cases ha : r = 0 ∨ r = n - 1 ∨ r = n
  · rw [is_pf_trivial_eq1 L1 c1 ha, is_pf_trivial_eq1 L2 c2 ha]
  · by_cases hb : r = 1
    · rw [is_pf_trivial_eq2 L1 c1 ha hb, is_pf_trivial_eq2 L2 c2 ha hb]
      exact fio_bool_indep h1 h2 (n : Int)
    · rw [is_pf_trivial_eq3 L1 c1 ha hb, is_pf_trivial_eq3 L2 c2 ha hb]

theorem is_bf_trivial_indep {L1 L2 : Nat} (h1 : 2 ≤ L1) (h2 : 2 ≤ L2) (n r c1 c2 : Nat) :
    (is_bf_trivial L1 n r c1).1 = (is_bf_trivial L2 n r c2).1 := by
  by_cases ha : r = 0 ∨ r = n
  · rw [is_bf_trivial_eq1 L1 c1 ha, is_bf_trivial_eq1 L2 c2 ha]
  · by_cases hb : r = 1 ∨ r = n - 1
    · rw [is_bf_trivial_eq2 L1 c1 ha hb, is_bf_trivial_eq2 L2 c2 ha hb]
      exact fio_bool_indep h1 h2 (n : Int)
    · rw [is_bf_trivial_eq3 L1 c1 ha hb, is_bf_trivial_eq3 L2 c2 ha hb]

theorem is_pf_F3_indep {L1 L2 : Nat} (h1 : 2 ≤ L1) (h2 : 2 ≤ L2) (n r : Nat) {c1 c2 : Nat}
    (hc : c1 = c2 ∨ (c1 ≤ 1 ∧ c2 ≤ 1)) :
    (is_pf_F3 L1 n r c1).1 = (is_pf_F3 L2 n r c2).1 := by
  rw [is_pf_F3_eq, is_pf_F3_eq]
  rw [show n_is_factorial = factorial_index_of from rfl]
  rcases fio_trichotomy L1 h1 (n : Int) with ⟨hn, e1⟩ | ⟨hx, m1, hm1, e1⟩ | ⟨k, hk, hxk, e1⟩
  · rw [e1, fio_not_fact L2 hn]
    rfl
  · have hn1 : n = 1 := by exact_mod_cast hx
    subst hn1
    obtain ⟨m2, hm2, e2⟩ := fio_one L2 h2
    have e2h : (factorial_index_of L2 ((1 : Nat) : Int)).1 = some m2 := by
      rw [show ((1 : Nat) : Int) = (1 : Int) from by norm_num]
      exact e2
    rw [e1, e2h]
    simp [show m1 < 3 from by omega, show m2 < 3 from by omega]
  · have e2h : (factorial_index_of L2 (n : Int)).1 = some k := by
      rw [hxk]
      exact fio_fact_ge2 L2 hk
    rw [e1, e2h]
    have hnk : n = Nat.factorial k := by exact_mod_cast hxk
    rcases hc with rfl | ⟨hc1, hc2⟩
    · rfl
    · by_cases h3 : k < 3
      · simp [h3]
      · have h6 : 6 ≤ n := by
          have := Nat.factorial_le (show 3 ≤ k from by omega)
          simp [Nat.factorial] at this
          omega
        have hne1 : (c1 == n - 1) = false := beq_eq_false_iff_ne.mpr (by omega)
        have hne2 : (c2 == n - 1) = false := beq_eq_false_iff_ne.mpr (by omega)
        simp [h3, hne1, hne2]

theorem fio_pair_cases (L1 L2 : Nat) (h1 : 2 ≤ L1) (h2 : 2 ≤ L2) (v : Nat) :
    ((factorial_index_of L1 (v : Int)).1 = none ∧
      (factorial_index_of L2 (v : Int)).1 = none) ∨
    (∃ c1 c2, (factorial_index_of L1 (v : Int)).1 = some c1 ∧
      (factorial_index_of L2 (v : Int)).1 = some c2 ∧
      (c1 = c2 ∨ (v = 1 ∧ c1 ≤ 1 ∧ c2 ≤ 1))) := by
  rcases fio_trichotomy L1 h1 (v : Int) with ⟨hn, e1⟩ | ⟨hx, m1, hm1, e1⟩ | ⟨k, hk, hxk, e1⟩
  · exact Or.inl ⟨e1, fio_not_fact L2 hn⟩
  · have hv : v = 1 := by exact_mod_cast hx
    obtain ⟨m2, hm2, e2⟩ := fio_one L2 h2
    refine Or.inr ⟨m1, m2, e1, ?_, Or.inr ⟨hv, hm1, hm2⟩⟩
    rw [show ((v : Nat) : Int) = (1 : Int) from hx]
    exact e2
  · have hvk : v = Nat.factorial k := by exact_mod_cast hxk
    have e2 : (factorial_index_of L2 ((Nat.factorial k : Nat) : Int)).1 = some k :=
      fio_fact_ge2 L2 hk
    rw [← hvk] at e2
    exact Or.inr ⟨k, k, e1, e2, Or.inl rfl⟩

/-! ### Per-iteration behaviour of the search loop bodies -/

theorem pfDelta_spec (it ipf3 : Bool) (n prod0 st0 r : Nat) :
    (∀ rec ∈ (pfDelta it ipf3 n (prod0, st0) r).1,
      rec.n = n ∧ rec.r = r ∧
        (rec.cls = "trivial" ∨ rec.cls = "PF_F3" ∨ rec.cls = "exceptional")) ∧
    ((pfDelta it ipf3 n (prod0, st0) r).1 = [] ∨
      ∃ a, (pfDelta it ipf3 n (prod0, st0) r).1 = [a]) ∧
    st0 ≤ (pfDelta it ipf3 n (prod0, st0) r).2.2 ∧
    (pfDelta it ipf3 n (prod0, st0) r).2.1 =
      (if r = 0 then prod0 else prod0 * (n - (r - 1))) := by
  simp only [pfDelta]
  have hge := fio_st_ge st0 (((if r = 0 then prod0 else prod0 * (n - (r - 1))) : Nat) : Int)
  rcases hfio : is_factorial st0 (((if r = 0 then prod0 else prod0 * (n - (r - 1))) : Nat) : Int)
    with ⟨o, st1⟩
  rw [show is_factorial st0 (((if r = 0 then prod0 else prod0 * (n - (r - 1))) : Nat) : Int) =
    factorial_index_of st0 (((if r = 0 then prod0 else prod0 * (n - (r - 1))) : Nat) : Int)
    from rfl] at hfio
  rw [hfio] at hge
  have hge1 : st0 ≤ st1 := hge
  cases o with
  | none =>
    dsimp only
    refine ⟨?_, Or.inl rfl, hge1, rfl⟩
    intro rec hrec
    exact absurd hrec (List.not_mem_nil rec)
  | some c =>
    dsimp only
    have htr2 := is_pf_trivial_st_ge st1 n r c
    have hf32 := is_pf_F3_st_ge (is_pf_trivial st1 n r c).2 n r c
    by_cases htr : (is_pf_trivial st1 n r c).1 = true
    · rw [if_pos htr]
      cases it with
      | true =>
        refine ⟨?_, Or.inr ⟨_, rfl⟩, ?_, rfl⟩
        · intro rec hrec
          have hrec2 : rec ∈ [PFRecord.mk n r c "trivial"] := hrec
          rw [List.mem_singleton] at hrec2
          subst hrec2
          exact ⟨rfl, rfl, Or.inl rfl⟩
        · show st0 ≤ (is_pf_trivial st1 n r c).2
          omega
      | false =>
        refine ⟨?_, Or.inl rfl, ?_, rfl⟩
        · intro rec hrec
          have hrec2 : rec ∈ ([] : List PFRecord) := hrec
          exact absurd hrec2 (List.not_mem_nil rec)
        · show st0 ≤ (is_pf_trivial st1 n r c).2
          omega
    · rw [if_neg htr]
      by_cases hf3 : (is_pf_F3 (is_pf_trivial st1 n r c).2 n r c).1 = true
      · rw [if_pos hf3]
        cases ipf3 with
        | true =>
          refine ⟨?_, Or.inr ⟨_, rfl⟩, ?_, rfl⟩
          · intro rec hrec
            have hrec2 : rec ∈ [PFRecord.mk n r c "PF_F3"] := hrec
            rw [List.mem_singleton] at hrec2
            subst hrec2
            exact ⟨rfl, rfl, Or.inr (Or.inl rfl)⟩
          · show st0 ≤ (is_pf_F3 (is_pf_trivial st1 n r c).2 n r c).2
            omega
        | false =>
          refine ⟨?_, Or.inl rfl, ?_, rfl⟩
          · intro rec hrec
            have hrec2 : rec ∈ ([] : List PFRecord) := hrec
            exact absurd hrec2 (List.not_mem_nil rec)
          · show st0 ≤ (is_pf_F3 (is_pf_trivial st1 n r c).2 n r c).2
            omega
      · rw [if_neg hf3]
        refine ⟨?_, Or.inr ⟨_, rfl⟩, ?_, rfl⟩
        · intro rec hrec
          have hrec2 : rec ∈ [PFRecord.mk n r c "exceptional"] := hrec
          rw [List.mem_singleton] at hrec2
          subst hrec2
          exact ⟨rfl, rfl, Or.inr (Or.inr rfl)⟩
        · show st0 ≤ (is_pf_F3 (is_pf_trivial st1 n r c).2 n r c).2
          omega

theorem bfDelta_spec (it : Bool) (n st0 r : Nat) :
    (∀ rec ∈ (bfDelta it n st0 r).1,
      rec.n = n ∧ rec.r = r ∧ (rec.cls = "trivial" ∨ rec.cls = "exceptional")) ∧
    ((bfDelta it n st0 r).1 = [] ∨ ∃ a, (bfDelta it n st0 r).1 = [a]) ∧
    st0 ≤ (bfDelta it n st0 r).2 := by
  simp only [bfDelta]
  have hge := fio_st_ge st0 ((Nat.choose n r : Nat) : Int)
  rcases hfio : is_factorial st0 ((Nat.choose n r : Nat) : Int) with ⟨o, st1⟩
  rw [show is_factorial st0 ((Nat.choose n r : Nat) : Int) =
    factorial_index_of st0 ((Nat.choose n r : Nat) : Int) from rfl] at hfio
  rw [hfio] at hge
  have hge1 : st0 ≤ st1 := hge
  cases o with
  | none =>
    dsimp only
    refine ⟨?_, Or.inl rfl, hge1⟩
    intro rec hrec
    exact absurd hrec (List.not_mem_nil rec)
  | some c =>
    dsimp only
    have htr2 := is_bf_trivial_st_ge st1 n r c
    by_cases htr : (is_bf_trivial st1 n r c).1 = true
    · rw [if_pos htr]
      cases it with
      | true =>
        refine ⟨?_, Or.inr ⟨_, rfl⟩, ?_⟩
        · intro rec hrec
          have hrec2 : rec ∈ [BFRecord.mk n r c "trivial"] := hrec
          rw [List.mem_singleton] at hrec2
          subst hrec2
          exact ⟨rfl, rfl, Or.inl rfl⟩
        · show st0 ≤ (is_bf_trivial st1 n r c).2
          omega
      | false =>
        refine ⟨?_, Or.inl rfl, ?_⟩
        · intro rec hrec
          have hrec2 : rec ∈ ([] : List BFRecord) := hrec
          exact absurd hrec2 (List.not_mem_nil rec)
        · show st0 ≤ (is_bf_trivial st1 n r c).2
          omega
    · rw [if_neg htr]
      refine ⟨?_, Or.inr ⟨_, rfl⟩, ?_⟩
      · intro rec hrec
        have hrec2 : rec ∈ [BFRecord.mk n r c "exceptional"] := hrec
        rw [List.mem_singleton] at hrec2
        subst hrec2
        exact ⟨rfl, rfl, Or.inr rfl⟩
      · show st0 ≤ (is_bf_trivial st1 n r c).2
        omega

theorem pfDelta_filter (ipf3 : Bool) (n prod0 st0 r : Nat) :
    (pfDelta false ipf3 n (prod0, st0) r).1 =
      ((pfDelta true ipf3 n (prod0, st0) r).1).filter (fun rec => rec.cls != "trivial") ∧
    (pfDelta false ipf3 n (prod0, st0) r).2 = (pfDelta true ipf3 n (prod0, st0) r).2 := by
  simp only [pfDelta]
  rcases hfio : is_factorial st0 (((if r = 0 then prod0 else prod0 * (n - (r - 1))) : Nat) : Int)
    with ⟨o, st1⟩
  cases o with
  | none => exact ⟨rfl, rfl⟩
  | some c =>
    dsimp only
    by_cases htr : (is_pf_trivial st1 n r c).1 = true
    · rw [if_pos htr, if_pos htr]
      refine ⟨?_, rfl⟩
      show ([] : List PFRecord) =
        List.filter (fun rec => rec.cls != "trivial") [PFRecord.mk n r c "trivial"]
      simp
    · rw [if_neg htr, if_neg htr]
      by_cases hf3 : (is_pf_F3 (is_pf_trivial st1 n r c).2 n r c).1 = true
      · rw [if_pos hf3]
        refine ⟨?_, rfl⟩
        cases ipf3 with
        | true =>
          show [PFRecord.mk n r c "PF_F3"] =
            List.filter (fun rec => rec.cls != "trivial") [PFRecord.mk n r c "PF_F3"]
          simp [show (("PF_F3" : String) != "trivial") = true from by decide]
        | false =>
          show ([] : List PFRecord) =
            List.filter (fun rec => rec.cls != "trivial") ([] : List PFRecord)
          simp
      · rw [if_neg hf3]
        refine ⟨?_, rfl⟩
        show [PFRecord.mk n r c "exceptional"] =
          List.filter (fun rec => rec.cls != "trivial") [PFRecord.mk n r c "exceptional"]
        simp [show (("exceptional" : String) != "trivial") = true from by decide]

theorem bfDelta_filter (n st0 r : Nat) :
    (bfDelta false n st0 r).1 =
      ((bfDelta true n st0 r).1).filter (fun rec => rec.cls != "trivial") ∧
    (bfDelta false n st0 r).2 = (bfDelta true n st0 r).2 := by
  simp only [bfDelta]
  rcases hfio : is_factorial st0 ((Nat.choose n r : Nat) : Int) with ⟨o, st1⟩
  cases o with
  | none => exact ⟨rfl, rfl⟩
  | some c =>
    dsimp only
    by_cases htr : (is_bf_trivial st1 n r c).1 = true
    · rw [if_pos htr, if_pos htr]
      refine ⟨?_, rfl⟩
      show ([] : List BFRecord) =
        List.filter (fun rec => rec.cls != "trivial") [BFRecord.mk n r c "trivial"]
      simp
    · rw [if_neg htr, if_neg htr]
      refine ⟨?_, rfl⟩
      show [BFRecord.mk n r c "exceptional"] =
        List.filter (fun rec => rec.cls != "trivial") [BFRecord.mk n r c "exceptional"]
      simp [show (("exceptional" : String) != "trivial") = true from by decide]

theorem pfDelta_parallel (it ipf3 : Bool) (n prod0 r : Nat) {L1 L2 : Nat}
    (h1 : 2 ≤ L1) (h2 : 2 ≤ L2) :
    ((pfDelta it ipf3 n (prod0, L1) r).1).map pfKey =
      ((pfDelta it ipf3 n (prod0, L2) r).1).map pfKey ∧
    (pfDelta it ipf3 n (prod0, L1) r).2.1 = (pfDelta it ipf3 n (prod0, L2) r).2.1 ∧
    2 ≤ (pfDelta it ipf3 n (prod0, L1) r).2.2 ∧
    2 ≤ (pfDelta it ipf3 n (prod0, L2) r).2.2 := by
  simp only [pfDelta]
  set v := (if r = 0 then prod0 else prod0 * (n - (r - 1))) with hv
  have hg1 := fio_st_ge L1 ((v : Nat) : Int)
  have hg2 := fio_st_ge L2 ((v : Nat) : Int)
  rcases hp1 : is_factorial L1 ((v : Nat) : Int) with ⟨o1, s1⟩
  rcases hp2 : is_factorial L2 ((v : Nat) : Int) with ⟨o2, s2⟩
  have q1 : (factorial_index_of L1 ((v : Nat) : Int)).1 = o1 := by rw [← is_factorial_eq, hp1]
  have q2 : (factorial_index_of L2 ((v : Nat) : Int)).1 = o2 := by rw [← is_factorial_eq, hp2]
  have hs1 : L1 ≤ s1 := by rw [← is_factorial_eq, hp1] at hg1; exact hg1
  have hs2 : L2 ≤ s2 := by rw [← is_factorial_eq, hp2] at hg2; exact hg2
  rcases fio_pair_cases L1 L2 h1 h2 v with ⟨e1, e2⟩ | ⟨c1, c2, e1, e2, hcc⟩
  · rw [q1] at e1
    rw [q2] at e2
    subst e1
    subst e2
    refine ⟨rfl, rfl, ?_, ?_⟩
    · show 2 ≤ s1
      omega
    · show 2 ≤ s2
      omega
  · rw [q1] at e1
    rw [q2] at e2
    subst e1
    subst e2
    dsimp only
    have hcc2 : c1 = c2 ∨ (c1 ≤ 1 ∧ c2 ≤ 1) := by
      rcases hcc with h | ⟨_, ha, hb⟩
      · exact Or.inl h
      · exact Or.inr ⟨ha, hb⟩
    have htr_eq : (is_pf_trivial s1 n r c1).1 = (is_pf_trivial s2 n r c2).1 :=
      is_pf_trivial_indep (by omega) (by omega) n r c1 c2
    have ht1 := is_pf_trivial_st_ge s1 n r c1
    have ht2 := is_pf_trivial_st_ge s2 n r c2
    have hf1 := is_pf_F3_st_ge (is_pf_trivial s1 n r c1).2 n r c1
    have hf2 := is_pf_F3_st_ge (is_pf_trivial s2 n r c2).2 n r c2
    by_cases htr : (is_pf_trivial s1 n r c1).1 = true
    · have htrB : (is_pf_trivial s2 n r c2).1 = true := by rw [← htr_eq]; exact htr
      rw [if_pos htr, if_pos htrB]
      cases it with
      | true =>
        refine ⟨rfl, rfl, ?_, ?_⟩
        · show 2 ≤ (is_pf_trivial s1 n r c1).2
          omega
        · show 2 ≤ (is_pf_trivial s2 n r c2).2
          omega
      | false =>
        refine ⟨rfl, rfl, ?_, ?_⟩
        · show 2 ≤ (is_pf_trivial s1 n r c1).2
          omega
        · show 2 ≤ (is_pf_trivial s2 n r c2).2
          omega
    · have htrB : ¬ (is_pf_trivial s2 n r c2).1 = true := by rw [← htr_eq]; exact htr
      rw [if_neg htr, if_neg htrB]
      have hf3_eq : (is_pf_F3 (is_pf_trivial s1 n r c1).2 n r c1).1 =
          (is_pf_F3 (is_pf_trivial s2 n r c2).2 n r c2).1 :=
        is_pf_F3_indep (by omega) (by omega) n r hcc2
      by_cases hf3 : (is_pf_F3 (is_pf_trivial s1 n r c1).2 n r c1).1 = true
      · have hf3B : (is_pf_F3 (is_pf_trivial s2 n r c2).2 n r c2).1 = true := by
          rw [← hf3_eq]; exact hf3
        rw [if_pos hf3, if_pos hf3B]
        cases ipf3 with
        | true =>
          refine ⟨rfl, rfl, ?_, ?_⟩
          · show 2 ≤ (is_pf_F3 (is_pf_trivial s1 n r c1).2 n r c1).2
            omega
          · show 2 ≤ (is_pf_F3 (is_pf_trivial s2 n r c2).2 n r c2).2
            omega
        | false =>
          refine ⟨rfl, rfl, ?_, ?_⟩
          · show 2 ≤ (is_pf_F3 (is_pf_trivial s1 n r c1).2 n r c1).2
            omega
          · show 2 ≤ (is_pf_F3 (is_pf_trivial s2 n r c2).2 n r c2).2
            omega
      · have hf3B : ¬ (is_pf_F3 (is_pf_trivial s2 n r c2).2 n r c2).1 = true := by
          rw [← hf3_eq]; exact hf3
        rw [if_neg hf3, if_neg hf3B]
        refine ⟨rfl, rfl, ?_, ?_⟩
        · show 2 ≤ (is_pf_F3 (is_pf_trivial s1 n r c1).2 n r c1).2
          omega
        · show 2 ≤ (is_pf_F3 (is_pf_trivial s2 n r c2).2 n r c2).2
          omega

theorem bfDelta_parallel (it : Bool) (n r : Nat) {L1 L2 : Nat}
    (h1 : 2 ≤ L1) (h2 : 2 ≤ L2) :
    ((bfDelta it n L1 r).1).map bfKey = ((bfDelta it n L2 r).1).map bfKey ∧
    2 ≤ (bfDelta it n L1 r).2 ∧ 2 ≤ (bfDelta it n L2 r).2 := by
  simp only [bfDelta]
  have hg1 := fio_st_ge L1 ((Nat.choose n r : Nat) : Int)
  have hg2 := fio_st_ge L2 ((Nat.choose n r : Nat) : Int)
  rcases hp1 : is_factorial L1 ((Nat.choose n r : Nat) : Int) with ⟨o1, s1⟩
  rcases hp2 : is_factorial L2 ((Nat.choose n r : Nat) : Int) with ⟨o2, s2⟩
  have q1 : (factorial_index_of L1 ((Nat.choose n r : Nat) : Int)).1 = o1 := by
    rw [← is_factorial_eq, hp1]
  have q2 : (factorial_index_of L2 ((Nat.choose n r : Nat) : Int)).1 = o2 := by
    rw [← is_factorial_eq, hp2]
  have hs1 : L1 ≤ s1 := by rw [← is_factorial_eq, hp1] at hg1; exact hg1
  have hs2 : L2 ≤ s2 := by rw [← is_factorial_eq, hp2] at hg2; exact hg2
  rcases fio_pair_cases L1 L2 h1 h2 (Nat.choose n r) with ⟨e1, e2⟩ | ⟨c1, c2, e1, e2, hcc⟩
  · rw [q1] at e1
    rw [q2] at e2
    subst e1
    subst e2
    refine ⟨rfl, ?_, ?_⟩
    · show 2 ≤ s1
      omega
    · show 2 ≤ s2
      omega
  · rw [q1] at e1
    rw [q2] at e2
    subst e1
    subst e2
    dsimp only
    have htr_eq : (is_bf_trivial s1 n r c1).1 = (is_bf_trivial s2 n r c2).1 :=
      is_bf_trivial_indep (by omega) (by omega) n r c1 c2
    have ht1 := is_bf_trivial_st_ge s1 n r c1
    have ht2 := is_bf_trivial_st_ge s2 n r c2
    by_cases htr : (is_bf_trivial s1 n r c1).1 = true
    · have htrB : (is_bf_trivial s2 n r c2).1 = true := by rw [← htr_eq]; exact htr
      rw [if_pos htr, if_pos htrB]
      cases it with
      | true =>
        refine ⟨rfl, ?_, ?_⟩
        · show 2 ≤ (is_bf_trivial s1 n r c1).2
          omega
        · show 2 ≤ (is_bf_trivial s2 n r c2).2
          omega
      | false =>
        refine ⟨rfl, ?_, ?_⟩
        · show 2 ≤ (is_bf_trivial s1 n r c1).2
          omega
        · show 2 ≤ (is_bf_trivial s2 n r c2).2
          omega
    · have htrB : ¬ (is_bf_trivial s2 n r c2).1 = true := by rw [← htr_eq]; exact htr
      rw [if_neg htr, if_neg htrB]
      refine ⟨rfl, ?_, ?_⟩
      · show 2 ≤ (is_bf_trivial s1 n r c1).2
        omega
      · show 2 ≤ (is_bf_trivial s2 n r c2).2
        omega

/-! ### Row-level and search-level structure -/

theorem search_pf_out (n_max : Nat) (it ipf3 : Bool) (st : Nat) :
    (search_pf n_max it ipf3 st).1 =
      runOut (pfRowD it ipf3) st (List.range (n_max + 1)) := rfl

theorem search_pf_st (n_max : Nat) (it ipf3 : Bool) (st : Nat) :
    (search_pf n_max it ipf3 st).2 =
      runSt (pfRowD it ipf3) st (List.range (n_max + 1)) := rfl

theorem pfRowD_out (it ipf3 : Bool) (st n : Nat) :
    (pfRowD it ipf3 st n).1 = runOut (pfDelta it ipf3 n) (1, st) (List.range (n + 1)) := rfl

theorem pfRowD_st (it ipf3 : Bool) (st n : Nat) :
    (pfRowD it ipf3 st n).2 =
      (runSt (pfDelta it ipf3 n) (1, st) (List.range (n + 1))).2 := rfl

theorem search_bf_out (n_max : Nat) (it : Bool) (st : Nat) :
    (search_bf n_max it st).1 = runOut (bfRowD it) st (List.range (n_max + 1)) := rfl

theorem search_bf_st (n_max : Nat) (it : Bool) (st : Nat) :
    (search_bf n_max it st).2 = runSt (bfRowD it) st (List.range (n_max + 1)) := rfl

theorem bfRowD_out (it : Bool) (st n : Nat) :
    (bfRowD it st n).1 = runOut (bfDelta it n) st (List.range (n + 1)) := rfl

theorem bfRowD_st (it : Bool) (st n : Nat) :
    (bfRowD it st n).2 = runSt (bfDelta it n) st (List.range (n + 1)) := rfl

theorem runSt_mono {α σ ι : Type} (d : σ → ι → List α × σ) (R : σ → σ → Prop)
    (hrefl : ∀ s, R s s) (htrans : ∀ a b c, R a b → R b c → R a c)
    (hstep : ∀ s i, R s (d s i).2) :
    ∀ (l : List ι) (st : σ), R st (runSt d st l) := by
  intro l
  induction l with
  | nil => intro st; rw [runSt_nil]; exact hrefl st
  | cons i l ih =>
    intro st
    rw [runSt_cons]
    exact htrans _ _ _ (hstep st i) (ih _)

theorem pfRowD_spec (it ipf3 : Bool) (st n : Nat) :
    (∀ rec ∈ (pfRowD it ipf3 st n).1, rec.n = n ∧
      (rec.cls = "trivial" ∨ rec.cls = "PF_F3" ∨ rec.cls = "exceptional")) ∧
    List.Pairwise (fun a b => a.n = b.n ∧ a.r < b.r) (pfRowD it ipf3 st n).1 ∧
    st ≤ (pfRowD it ipf3 st n).2 := by
  have hP : ∀ (ps : Nat × Nat) (r : Nat) (rec : PFRecord),
      rec ∈ (pfDelta it ipf3 n ps r).1 → rec.n = n ∧ rec.r = r ∧
        (rec.cls = "trivial" ∨ rec.cls = "PF_F3" ∨ rec.cls = "exceptional") := by
    intro ps r rec hrec
    obtain ⟨p, s⟩ := ps
    exact (pfDelta_spec it ipf3 n p s r).1 rec hrec
  refine ⟨?_, ?_, ?_⟩
  · intro rec hrec
    rw [pfRowD_out] at hrec
    obtain ⟨i, _, hi⟩ := runOut_mem (pfDelta it ipf3 n)
      (fun r rec => rec.n = n ∧ rec.r = r ∧
        (rec.cls = "trivial" ∨ rec.cls = "PF_F3" ∨ rec.cls = "exceptional"))
      (fun ps r a h => hP ps r a h) (List.range (n + 1)) (1, st) rec hrec
    exact ⟨hi.1, hi.2.2⟩
  · rw [pfRowD_out]
    apply runOut_pairwise (pfDelta it ipf3 n) _ (fun r rec => rec.n = n ∧ rec.r = r)
      (fun ps r a h => ⟨(hP ps r a h).1, (hP ps r a h).2.1⟩)
    · intro ps r
      obtain ⟨p, s⟩ := ps
      rcases (pfDelta_spec it ipf3 n p s r).2.1 with h | ⟨a, h⟩
      · rw [h]
        exact List.Pairwise.nil
      · rw [h]
        exact List.pairwise_singleton _ a
    · apply List.Pairwise.imp ?_ (List.pairwise_lt_range (n + 1))
      intro i j hij
      intro a b ha hb
      rw [ha.1, ha.2, hb.1, hb.2]
      exact ⟨rfl, hij⟩
  · rw [pfRowD_st]
    have := runSt_mono (pfDelta it ipf3 n) (fun ps qs => ps.2 ≤ qs.2)
      (fun s => le_refl s.2) (fun a b c hab hbc => le_trans hab hbc)
      (fun ps i => by
        obtain ⟨p, s⟩ := ps
        exact (pfDelta_spec it ipf3 n p s i).2.2.1)
      (List.range (n + 1)) (1, st)
    exact this

theorem bfRowD_spec (it : Bool) (st n : Nat) :
    (∀ rec ∈ (bfRowD it st n).1, rec.n = n ∧
      (rec.cls = "trivial" ∨ rec.cls = "exceptional")) ∧
    List.Pairwise (fun a b => a.n = b.n ∧ a.r < b.r) (bfRowD it st n).1 ∧
    st ≤ (bfRowD it st n).2 := by
  have hP : ∀ (s r : Nat) (rec : BFRecord),
      rec ∈ (bfDelta it n s r).1 → rec.n = n ∧ rec.r = r ∧
        (rec.cls = "trivial" ∨ rec.cls = "exceptional") :=
    fun s r rec hrec => (bfDelta_spec it n s r).1 rec hrec
  refine ⟨?_, ?_, ?_⟩
  · intro rec hrec
    rw [bfRowD_out] at hrec
    obtain ⟨i, _, hi⟩ := runOut_mem (bfDelta it n)
      (fun r rec => rec.n = n ∧ rec.r = r ∧
        (rec.cls = "trivial" ∨ rec.cls = "exceptional"))
      (fun s r a h => hP s r a h) (List.range (n + 1)) st rec hrec
    exact ⟨hi.1, hi.2.2⟩
  · rw [bfRowD_out]
    apply runOut_pairwise (bfDelta it n) _ (fun r rec => rec.n = n ∧ rec.r = r)
      (fun s r a h => ⟨(hP s r a h).1, (hP s r a h).2.1⟩)
    · intro s r
      rcases (bfDelta_spec it n s r).2.1 with h | ⟨a, h⟩
      · rw [h]
        exact List.Pairwise.nil
      · rw [h]
        exact List.pairwise_singleton _ a
    · apply List.Pairwise.imp ?_ (List.pairwise_lt_range (n + 1))
      intro i j hij
      intro a b ha hb
      rw [ha.1, ha.2, hb.1, hb.2]
      exact ⟨rfl, hij⟩
  · rw [bfRowD_st]
    exact runSt_mono (bfDelta it n) (fun a b => a ≤ b)
      (fun s => le_refl s) (fun a b c hab hbc => le_trans hab hbc)
      (fun s i => (bfDelta_spec it n s i).2.2)
      (List.range (n + 1)) st

theorem pfRowD_filter (ipf3 : Bool) (st n : Nat) :
    (pfRowD false ipf3 st n).1 =
      ((pfRowD true ipf3 st n).1).filter (fun rec => rec.cls != "trivial") ∧
    (pfRowD false ipf3 st n).2 = (pfRowD true ipf3 st n).2 := by
  have h := runOut_filter (pfDelta true ipf3 n) (pfDelta false ipf3 n)
    (fun rec => rec.cls != "trivial")
    (fun ps r => by
      obtain ⟨p, s⟩ := ps
      exact pfDelta_filter ipf3 n p s r)
    (List.range (n + 1)) (1, st)
  refine ⟨?_, ?_⟩
  · rw [pfRowD_out, pfRowD_out]
    exact h.1
  · rw [pfRowD_st, pfRowD_st, h.2]

theorem bfRowD_filter (st n : Nat) :
    (bfRowD false st n).1 =
      ((bfRowD true st n).1).filter (fun rec => rec.cls != "trivial") ∧
    (bfRowD false st n).2 = (bfRowD true st n).2 := by
  have h := runOut_filter (bfDelta true n) (bfDelta false n)
    (fun rec => rec.cls != "trivial")
    (fun s r => bfDelta_filter n s r)
    (List.range (n + 1)) st
  refine ⟨?_, ?_⟩
  · rw [bfRowD_out, bfRowD_out]
    exact h.1
  · rw [bfRowD_st, bfRowD_st, h.2]

theorem pfRowD_parallel (it ipf3 : Bool) (n : Nat) {L1 L2 : Nat}
    (h1 : 2 ≤ L1) (h2 : 2 ≤ L2) :
    ((pfRowD it ipf3 L1 n).1).map pfKey = ((pfRowD it ipf3 L2 n).1).map pfKey ∧
    2 ≤ (pfRowD it ipf3 L1 n).2 ∧ 2 ≤ (pfRowD it ipf3 L2 n).2 := by
  have h := runOut_parallel (pfDelta it ipf3 n) (pfDelta it ipf3 n) pfKey pfKey
    (fun ps qs => ps.1 = qs.1 ∧ 2 ≤ ps.2 ∧ 2 ≤ qs.2)
    (fun ps qs r hR => by
      obtain ⟨p1, s1⟩ := ps
      obtain ⟨p2, s2⟩ := qs
      obtain ⟨hp, hs1, hs2⟩ := hR
      dsimp only at hp hs1 hs2
      subst hp
      obtain ⟨hmap, hprod, hb1, hb2⟩ := pfDelta_parallel it ipf3 n p1 r hs1 hs2
      exact ⟨hmap, hprod, hb1, hb2⟩)
    (List.range (n + 1)) (1, L1) (1, L2) ⟨rfl, h1, h2⟩
  refine ⟨?_, ?_, ?_⟩
  · rw [pfRowD_out, pfRowD_out]
    exact h.1
  · rw [pfRowD_st]
    exact h.2.2.1
  · rw [pfRowD_st]
    exact h.2.2.2

theorem bfRowD_parallel (it : Bool) (n : Nat) {L1 L2 : Nat}
    (h1 : 2 ≤ L1) (h2 : 2 ≤ L2) :
    ((bfRowD it L1 n).1).map bfKey = ((bfRowD it L2 n).1).map bfKey ∧
    2 ≤ (bfRowD it L1 n).2 ∧ 2 ≤ (bfRowD it L2 n).2 := by
  have h := runOut_parallel (bfDelta it n) (bfDelta it n) bfKey bfKey
    (fun s1 s2 => 2 ≤ s1 ∧ 2 ≤ s2)
    (fun s1 s2 r hR => bfDelta_parallel it n r hR.1 hR.2)
    (List.range (n + 1)) L1 L2 ⟨h1, h2⟩
  refine ⟨?_, ?_, ?_⟩
  · rw [bfRowD_out, bfRowD_out]
    exact h.1
  · rw [bfRowD_st]
    exact h.2.1
  · rw [bfRowD_st]
    exact h.2.2

theorem search_pf_mono (m : Nat) (it ipf3 : Bool) (st : Nat) :
    ∃ t, (search_pf (m + 1) it ipf3 st).1 = (search_pf m it ipf3 st).1 ++ t := by
  have h : (search_pf (m + 1) it ipf3 st).1 =
      (search_pf m it ipf3 st).1 ++
        runOut (pfRowD it ipf3) (runSt (pfRowD it ipf3) st (List.range (m + 1))) [m + 1] := by
    rw [search_pf_out, search_pf_out,
      show List.range (m + 1 + 1) = List.range (m + 1) ++ [m + 1] from List.range_succ (m + 1),
      runOut_append]
  exact ⟨_, h⟩

theorem search_bf_mono (m : Nat) (it : Bool) (st : Nat) :
    ∃ t, (search_bf (m + 1) it st).1 = (search_bf m it st).1 ++ t := by
  have h : (search_bf (m + 1) it st).1 =
      (search_bf m it st).1 ++
        runOut (bfRowD it) (runSt (bfRowD it) st (List.range (m + 1))) [m + 1] := by
    rw [search_bf_out, search_bf_out,
      show List.range (m + 1 + 1) = List.range (m + 1) ++ [m + 1] from List.range_succ (m + 1),
      runOut_append]
  exact ⟨_, h⟩

/-! ### Claim theorems -/

/-- C1: for every k and every reachable table state (any length at least 2,
the initial table `[1, 1]` included), `factorial_index_of (k!)` reports found;
for k at least 2 the returned index is exactly k, and for the value
1 (= 0! = 1!) the returned index is 0 or 1. -/
theorem factorial_index_of_at_factorial (k L : Nat) (hL : 2 ≤ L) :
    (2 ≤ k → (factorial_index_of L ((Nat.factorial k : Nat) : Int)).1 = some k) ∧
    (k ≤ 1 → (factorial_index_of L ((Nat.factorial k : Nat) : Int)).1 = some 0 ∨
      (factorial_index_of L ((Nat.factorial k : Nat) : Int)).1 = some 1) := by
  constructor
  · intro hk
    exact fio_fact_ge2 L hk
  · intro hk
    have hfk : Nat.factorial k = 1 := fact_small_eq_one (by omega)
    rw [hfk]
    obtain ⟨m, hm, e⟩ := fio_one L hL
    have e2 : (factorial_index_of L ((1 : Nat) : Int)).1 = some m := by
      rw [show ((1 : Nat) : Int) = (1 : Int) from by norm_num]
      exact e
    rcases Nat.le_one_iff_eq_zero_or_eq_one.mp hm with rfl | rfl
    · exact Or.inl e2
    · exact Or.inr e2

/-- Witness for C1 at k = 5 (index exactly 5) and k = 0 (value 1, index 0 or 1),
from the initial table state. -/
theorem factorial_index_of_at_factorial_witness :
    (factorial_index_of 2 ((Nat.factorial 5 : Nat) : Int)).1 = some 5 ∧
    ((factorial_index_of 2 ((Nat.factorial 0 : Nat) : Int)).1 = some 0 ∨
      (factorial_index_of 2 ((Nat.factorial 0 : Nat) : Int)).1 = some 1) :=
  ⟨(factorial_index_of_at_factorial 5 2 (by norm_num)).1 (by norm_num),
    (factorial_index_of_at_factorial 0 2 (by norm_num)).2 (by norm_num)⟩

/-- C2: for every integer x that is no factorial value, `factorial_index_of x`
returns not-found, from any table state; in particular every x < 1 returns
not-found.  The membership test has no false positives. -/
theorem factorial_index_of_not_factorial (L : Nat) (x : Int) :
    ((¬ ∃ k : Nat, x = (Nat.factorial k : Int)) → (factorial_index_of L x).1 = none) ∧
    (x < 1 → (factorial_index_of L x).1 = none) := by
  constructor
  · intro h
    exact fio_not_fact L h
  · intro h
    rw [fio_neg h]

theorem not_exists_factorial_eq_five : ¬ ∃ k : Nat, (5 : Int) = (Nat.factorial k : Int) := by
  rintro ⟨k, hk⟩
  have h5 : Nat.factorial k = 5 := by exact_mod_cast hk.symm
  rcases Nat.lt_or_ge k 4 with h | h
  · interval_cases k <;> simp [Nat.factorial] at h5
  · have h24 : Nat.factorial 4 ≤ Nat.factorial k := Nat.factorial_le h
    simp [Nat.factorial] at h24
    omega

/-- Witness for C2 at x = 5 (adjacent to 3! = 6) and at x = -3, from the
initial table state. -/
theorem factorial_index_of_not_factorial_witness :
    (factorial_index_of 2 5).1 = none ∧ (factorial_index_of 2 (-3)).1 = none :=
  ⟨(factorial_index_of_not_factorial 2 5).1 not_exists_factorial_eq_five,
    (factorial_index_of_not_factorial 2 (-3)).2 (by norm_num)⟩

/-- C3 counterexample: the index returned for x = 1 is not a fixed convention
across table states.  Table length 3 is reachable from the initial length 2
(a query at 2 extends the table), `factorial_index_of 1` returns index 0 on
the length-2 table but index 1 on the length-3 table, so no single fixed k
is returned for x = 1 in every table state. -/
theorem factorial_index_of_one_not_fixed :
    (factorial_index_of 2 2).2 = 3 ∧
    (factorial_index_of 2 1).1 = some 0 ∧
    (factorial_index_of 3 1).1 = some 1 ∧
    ¬ ∃ k, ∀ L, 2 ≤ L → (factorial_index_of L 1).1 = some k := by
  refine ⟨by decide, by decide, by decide, ?_⟩
  rintro ⟨k, h⟩
  have h2 := h 2 (by norm_num)
  have h3 := h 3 (by norm_num)
  rw [show (factorial_index_of 2 1).1 = some 0 from by decide] at h2
  rw [show (factorial_index_of 3 1).1 = some 1 from by decide] at h3
  have : (some 0 : Option Nat) = some 1 := h2.trans h3.symm
  simp at this

/-- C3 amended: every call `factorial_index_of 1` reports found with an index
that is 0 or 1, in every table state of length at least 2, but which of the
two indices is returned depends on the table length. -/
theorem factorial_index_of_one_small_index :
    ∀ L, 2 ≤ L → ∃ m, m ≤ 1 ∧ (factorial_index_of L 1).1 = some m :=
  fun L hL => fio_one L hL

/-- Witness for the amended C3 at the initial table state. -/
theorem factorial_index_of_one_small_index_witness :
    ∃ m, m ≤ 1 ∧ (factorial_index_of 2 1).1 = some m :=
  factorial_index_of_one_small_index 2 (by norm_num)

/-- C4: every record emitted by `search_pf` carries exactly one classification
tag from {trivial, PF_F3, exceptional}, and every record emitted by
`search_bf` exactly one from {trivial, exceptional} (the loop body assigns
the tag through the fixed priority chain trivial → PF_F3 → exceptional). -/
theorem classification_exclusive :
    (∀ (n_max : Nat) (it ipf3 : Bool) (st : Nat) (rec : PFRecord),
      rec ∈ (search_pf n_max it ipf3 st).1 →
        ["trivial", "PF_F3", "exceptional"].count rec.cls = 1) ∧
    (∀ (n_max : Nat) (it : Bool) (st : Nat) (rec : BFRecord),
      rec ∈ (search_bf n_max it st).1 →
        ["trivial", "exceptional"].count rec.cls = 1) := by
  constructor
  · intro n_max it ipf3 st rec hrec
    rw [search_pf_out] at hrec
    obtain ⟨i, _, hcls⟩ := runOut_mem (pfRowD it ipf3)
      (fun _ rec => rec.cls = "trivial" ∨ rec.cls = "PF_F3" ∨ rec.cls = "exceptional")
      (fun s n a h => ((pfRowD_spec it ipf3 s n).1 a h).2)
      (List.range (n_max + 1)) st rec hrec
    rcases hcls with h | h | h <;> rw [h] <;> decide
  · intro n_max it st rec hrec
    rw [search_bf_out] at hrec
    obtain ⟨i, _, hcls⟩ := runOut_mem (bfRowD it)
      (fun _ rec => rec.cls = "trivial" ∨ rec.cls = "exceptional")
      (fun s n a h => ((bfRowD_spec it s n).1 a h).2)
      (List.range (n_max + 1)) st rec hrec
    rcases hcls with h | h <;> rw [h] <;> decide

/-- Witness for C4 on the records produced by `search_pf 0` and `search_bf 0`
from the initial table state. -/
theorem classification_exclusive_witness :
    ["trivial", "PF_F3", "exceptional"].count (PFRecord.mk 0 0 0 "trivial").cls = 1 ∧
    ["trivial", "exceptional"].count (BFRecord.mk 0 0 0 "trivial").cls = 1 :=
  ⟨classification_exclusive.1 0 true true 2 (PFRecord.mk 0 0 0 "trivial") (by decide),
    classification_exclusive.2 0 true 2 (BFRecord.mk 0 0 0 "trivial") (by decide)⟩

/-- C5 counterexample: the record lists are not determined by the call
arguments alone, because the factorial table is global state.  A run of
`search_pf 2` (resp. `search_bf 2`) from the initial table (length 2) leaves
the table at length 3; running with argument 0 from the fresh state and from
that extended state yields different record lists (the c field of the
(n = 0, r = 0) record is 0 in one and 1 in the other). -/
theorem search_output_depends_on_table_state :
    (search_pf 2 true true 2).2 = 3 ∧
    (search_pf 0 true true 2).1 ≠ (search_pf 0 true true 3).1 ∧
    (search_bf 2 true 2).2 = 3 ∧
    (search_bf 0 true 2).1 ≠ (search_bf 0 true 3).1 := by
  exact ⟨by decide, by decide, by decide, by decide⟩

/-- C5 amended: two runs with identical arguments and identical table states
produce identical record lists, and even across different table states (any
lengths at least 2) the two lists agree position by position in the n, r and
class fields — only the c field may differ. -/
theorem search_output_state_independent_mod_c :
    ∀ (n_max : Nat) (it ipf3 : Bool) (L1 L2 : Nat), 2 ≤ L1 → 2 ≤ L2 →
      ((search_pf n_max it ipf3 L1).1).map pfKey =
        ((search_pf n_max it ipf3 L2).1).map pfKey ∧
      ((search_bf n_max it L1).1).map bfKey = ((search_bf n_max it L2).1).map bfKey := by
  intro n_max it ipf3 L1 L2 h1 h2
  constructor
  · rw [search_pf_out, search_pf_out]
    exact (runOut_parallel (pfRowD it ipf3) (pfRowD it ipf3) pfKey pfKey
      (fun a b => 2 ≤ a ∧ 2 ≤ b)
      (fun a b i hR => by
        obtain ⟨hmap, hb1, hb2⟩ := pfRowD_parallel it ipf3 i hR.1 hR.2
        exact ⟨hmap, hb1, hb2⟩)
      (List.range (n_max + 1)) L1 L2 ⟨h1, h2⟩).1
  · rw [search_bf_out, search_bf_out]
    exact (runOut_parallel (bfRowD it) (bfRowD it) bfKey bfKey
      (fun a b => 2 ≤ a ∧ 2 ≤ b)
      (fun a b i hR => by
        obtain ⟨hmap, hb1, hb2⟩ := bfRowD_parallel it i hR.1 hR.2
        exact ⟨hmap, hb1, hb2⟩)
      (List.range (n_max + 1)) L1 L2 ⟨h1, h2⟩).1

/-- Witness for the amended C5: runs of `search_pf 1` and `search_bf 1` from
table lengths 2 and 3 agree in all fields but c. -/
theorem search_output_state_independent_mod_c_witness :
    ((search_pf 1 true true 2).1).map pfKey = ((search_pf 1 true true 3).1).map pfKey ∧
    ((search_bf 1 true 2).1).map bfKey = ((search_bf 1 true 3).1).map bfKey :=
  search_output_state_independent_mod_c 1 true true 2 3 (by norm_num) (by norm_num)

/-- C6: for every n_max at least 6 and either include_trivial setting, the
PF search from the fresh table state with include_pf_f3 = true produces the
record (n = 6, r = 3, c = 5) tagged PF_F3, since P(6,3) = 120 = 5!. -/
theorem search_pf_contains_known_f3 (n_max : Nat) (h : 6 ≤ n_max) (it : Bool) :
    PFRecord.mk 6 3 5 "PF_F3" ∈ (search_pf n_max it true 2).1 := by
  induction n_max, h using Nat.le_induction with
  | base => cases it <;> decide
  | succ m hm ih =>
    obtain ⟨t, ht⟩ := search_pf_mono m it true 2
    rw [ht]
    exact List.mem_append.mpr (Or.inl ih)

/-- Witness for C6 at n_max = 6. -/
theorem search_pf_contains_known_f3_witness :
    PFRecord.mk 6 3 5 "PF_F3" ∈ (search_pf 6 true true 2).1 :=
  search_pf_contains_known_f3 6 (by norm_num) true

/-- C7: for every n_max, include_pf_f3 setting and table state, running with
include_trivial = false returns exactly the include_trivial = true list with
the trivial-tagged records removed, the remaining records unchanged and in
the same order; likewise for the BF search. -/
theorem include_trivial_filters_output :
    ∀ (n_max : Nat) (ipf3 : Bool) (st : Nat),
      (search_pf n_max false ipf3 st).1 =
        ((search_pf n_max true ipf3 st).1).filter (fun rec => rec.cls != "trivial") ∧
      (search_bf n_max false st).1 =
        ((search_bf n_max true st).1).filter (fun rec => rec.cls != "trivial") := by
  intro n_max ipf3 st
  constructor
  · rw [search_pf_out, search_pf_out]
    exact (runOut_filter (pfRowD true ipf3) (pfRowD false ipf3) _
      (fun s n => pfRowD_filter ipf3 s n) (List.range (n_max + 1)) st).1
  · rw [search_bf_out, search_bf_out]
    exact (runOut_filter (bfRowD true) (bfRowD false) _
      (fun s n => bfRowD_filter s n) (List.range (n_max + 1)) st).1

/-- C8: invariants of the factorial table: the table of length L holds k! at
index k (a prefix of the true factorial sequence), it is non-decreasing and
strictly increasing from index 2 on, extension never shrinks the table and
only appends to it, and extending twice to the same bound is the same as
extending once. -/
theorem facts_table_invariants :
    (∀ L k, k < L → (facts L).getD k 0 = Nat.factorial k) ∧
    (∀ L i j, i ≤ j → j < L → (facts L).getD i 0 ≤ (facts L).getD j 0) ∧
    (∀ L i j, 2 ≤ i → i < j → j < L → (facts L).getD i 0 < (facts L).getD j 0) ∧
    (∀ x L, L ≤ extend_factorials_until_ge x L ∧
      ∃ t, facts (extend_factorials_until_ge x L) = facts L ++ t) ∧
    (∀ x L, extend_factorials_until_ge x (extend_factorials_until_ge x L) =
      extend_factorials_until_ge x L) := by
  refine ⟨fun L k h => facts_getD h, fun L i j hij hj => facts_sorted hij hj,
    fun L i j h2 hij hj => facts_strict h2 hij hj, ?_, fun x L => extend_idem x L⟩
  intro x L
  refine ⟨extend_ge x L, ?_⟩
  obtain ⟨d, hd⟩ : ∃ d, extend_factorials_until_ge x L = L + d :=
    ⟨extend_factorials_until_ge x L - L, by have := extend_ge x L; omega⟩
  rw [hd]
  refine ⟨((List.range d).map (fun i => L + i)).map Nat.factorial, ?_⟩
  simp [facts, List.range_add, Function.comp]

/-- Witness for C8 at concrete indices and the extension bound 6. -/
theorem facts_table_invariants_witness :
    (facts 3).getD 2 0 = Nat.factorial 2 ∧
    (facts 4).getD 1 0 ≤ (facts 4).getD 3 0 ∧
    (facts 5).getD 2 0 < (facts 5).getD 3 0 ∧
    (2 ≤ extend_factorials_until_ge 6 2 ∧
      ∃ t, facts (extend_factorials_until_ge 6 2) = facts 2 ++ t) ∧
    extend_factorials_until_ge 6 (extend_factorials_until_ge 6 2) =
      extend_factorials_until_ge 6 2 :=
  ⟨facts_table_invariants.1 3 2 (by norm_num),
    facts_table_invariants.2.1 4 1 3 (by norm_num) (by norm_num),
    facts_table_invariants.2.2.1 5 2 3 (by norm_num) (by norm_num) (by norm_num),
    facts_table_invariants.2.2.2.1 6 2,
    facts_table_invariants.2.2.2.2 6 2⟩

/-- C9: both searches produce their records in strictly increasing
lexicographic (n, r) order: n never decreases along the list, and among
records with equal n the r fields strictly increase. -/
theorem search_output_ordered :
    ∀ (n_max : Nat) (it ipf3 : Bool) (st : Nat),
      List.Pairwise (fun a b => a.n < b.n ∨ (a.n = b.n ∧ a.r < b.r))
        (search_pf n_max it ipf3 st).1 ∧
      List.Pairwise (fun a b => a.n < b.n ∨ (a.n = b.n ∧ a.r < b.r))
        (search_bf n_max it st).1 := by
  intro n_max it ipf3 st
  constructor
  · rw [search_pf_out]
    apply runOut_pairwise (pfRowD it ipf3) _ (fun n rec => rec.n = n)
      (fun s n a h => ((pfRowD_spec it ipf3 s n).1 a h).1)
    · intro s n
      exact List.Pairwise.imp (fun h => Or.inr h) (pfRowD_spec it ipf3 s n).2.1
    · apply List.Pairwise.imp ?_ (List.pairwise_lt_range (n_max + 1))
      intro i j hij a b ha hb
      exact Or.inl (by rw [ha, hb]; exact hij)
  · rw [search_bf_out]
    apply runOut_pairwise (bfRowD it) _ (fun n rec => rec.n = n)
      (fun s n a h => ((bfRowD_spec it s n).1 a h).1)
    · intro s n
      exact List.Pairwise.imp (fun h => Or.inr h) (bfRowD_spec it s n).2.1
    · apply List.Pairwise.imp ?_ (List.pairwise_lt_range (n_max + 1))
      intro i j hij a b ha hb
      exact Or.inl (by rw [ha, hb]; exact hij)

/-- C10: for every n_max at least 4 with include_trivial = true, the BF
search from the fresh table state produces the record (n = 4, r = 2, c = 3)
tagged exceptional, since C(4,2) = 6 = 3!, r is none of 0, 1, n-1, n, and 4
is not a factorial: the exceptional branch of the BF search is reachable. -/
theorem search_bf_contains_exceptional (n_max : Nat) (h : 4 ≤ n_max) :
    BFRecord.mk 4 2 3 "exceptional" ∈ (search_bf n_max true 2).1 := by
  induction n_max, h using Nat.le_induction with
  | base => decide
  | succ m hm ih =>
    obtain ⟨t, ht⟩ := search_bf_mono m true 2
    rw [ht]
    exact List.mem_append.mpr (Or.inl ih)

/-- Witness for C10 at n_max = 4. -/
theorem search_bf_contains_exceptional_witness :
    BFRecord.mk 4 2 3 "exceptional" ∈ (search_bf 4 true 2).1 :=
  search_bf_contains_exceptional 4 (by norm_num)
